import Mathlib

/-!
Verification development for the hashMatcher in-memory Hamming-distance
search service (src/searcher/hashMatcher.cpp).  The C++ program is shallowly
embedded: 64-bit machine words become `Nat` (64-bit wraparound is applied
explicitly where the program relies on it), the global shard array
`GBLnodeLists` becomes a `List (List Node)`, the global result vector
`GBLsearchResults` a `List Match`, and the concurrent per-shard search
workers are sequentialised in shard order — one fair interleaving, which is
faithful for every property conditioned on the absence of a concurrent
insert.
-/

/-- `struct Node { uint64_t dbId; uint64_t pHash; }` — one stored entry
(lines 35–45); the constructor takes `(dbId, pHash)` in this order. -/
structure Node where
  dbId : Nat
  pHash : Nat
deriving DecidableEq, Repr

/-- `struct Match { uint64_t dbId; int distance; }` — one search result
(lines 50–60); the distance is a popcount, hence never negative. -/
structure Match where
  dbId : Nat
  distance : Nat
deriving DecidableEq, Repr

/-- One step per bit over 64 bits: `popcountAux k n` counts the set bits
among the low `k` bits of `n`. -/
def popcountAux : Nat → Nat → Nat
  | 0, _ => 0
  | k + 1, n => n % 2 + popcountAux k (n / 2)

/-- `__builtin_popcountl` on a 64-bit operand (line 281). -/
def popcount (n : Nat) : Nat := popcountAux 64 n

/-- Lines 280–281 of `searchThread`:
`bitsToCount = queryHash ^ it->pHash; distance = __builtin_popcountl(bitsToCount)`. -/
def distance (queryHash pHash : Nat) : Nat := popcount (queryHash ^^^ pHash)

/-- `searchThread` (lines 265–300): scan one shard in list order and, for
every node within `maxDistance` of the query, append a `Match` to the
result collection (the `emplace_back` under `GBLsearchResultsMutex`). -/
def searchThreadRun (queryHash maxDistance : Nat) (nodeList : List Node) : List Match :=
  nodeList.foldl
    (fun acc n =>
      if distance queryHash n.pHash ≤ maxDistance
      then acc ++ [Match.mk n.dbId (distance queryHash n.pHash)] else acc)
    []

/-- `search` (lines 231–259): clear `GBLsearchResults` (discarding `old`,
the results left by the previous query), start one worker per shard, and
join them all before returning; the workers' interleaved appends are
sequentialised in shard order. -/
def search (hash maxDistance : Nat) (old : List Match) (shards : List (List Node)) :
    List Match :=
  shards.foldl (fun acc l => acc ++ searchThreadRun hash maxDistance l) []

/-- The pair-scanning loop of `add` (lines 95–102) on the shard array
`l0 :: rest`: compare each shard with the next, inserting the node at the
front of the next whenever it is strictly shorter; the scan does not stop
at the first qualifying pair, and each comparison sees the sizes as already
modified by insertions made earlier in the same call.  Returns the shard
array after the loop together with the final value of `added`. -/
def addScan (node : Node) (l0 : List Node) : List (List Node) → List (List Node) × Bool
  | [] => ([l0], false)
  | l1 :: rest =>
    if l1.length < l0.length then
      let p := addScan node (node :: l1) rest
      (l0 :: p.1, true)
    else
      let p := addScan node l1 rest
      (l0 :: p.1, p.2)

/-- `add(uint64_t hash, uint64_t dbId)` (lines 88–105).  The call site
(line 174) passes the protocol dbId as `hash` and the protocol hash as
`dbId`, and `emplace_front(hash, dbId)` builds `Node(dbId := hash,
pHash := dbId)`, so the two swaps cancel.  If no pair qualified, the node
goes to the front of shard 0.  `main` guarantees at least one shard; the
`[]` case is unreachable. -/
def add (hash dbId : Nat) (shards : List (List Node)) : List (List Node) :=
  let node := Node.mk hash dbId
  match shards with
  | [] => []
  | l0 :: rest =>
    let p := addScan node l0 rest
    if p.2 then p.1 else p.1.set 0 (node :: p.1.getD 0 [])

/-- Total number of stored entries across all shards. -/
def totalSize (shards : List (List Node)) : Nat := (shards.map List.length).sum

/-- Size of shard `i`, as the specification's policy reads it ("shard i+1
is currently smaller than shard i"). -/
def specSizeAt (shards : List (List Node)) (i : Nat) : Nat := (shards.getD i []).length

/-- Insert a new entry into shard `i`, as the specification's policy words
it ("insert the new Entry into shard i+1"); insertion is newest-first. -/
def specInsertAt (shards : List (List Node)) (i : Nat) (node : Node) : List (List Node) :=
  shards.set i (node :: shards.getD i [])

/-- The insertion policy exactly as the specification words it (§4.1):
scan shard pairs `(i, i+1)` for `i` from `0` to `N-2`; for every pair where
shard `i+1` is currently smaller than shard `i`, insert the new Entry into
shard `i+1`, without stopping at the first qualifying pair; if no pair
qualified, insert into shard 0. -/
def specAdd (hash dbId : Nat) (shards : List (List Node)) : List (List Node) :=
  let node := Node.mk hash dbId
  let p := (List.range (shards.length - 1)).foldl
    (fun st i =>
      if specSizeAt st.1 (i + 1) < specSizeAt st.1 i then (specInsertAt st.1 (i + 1) node, true)
      else st)
    (shards, false)
  if p.2 then p.1 else specInsertAt p.1 0 node

/-- The inner `memchr` loop of `readCommands` (lines 205–213): split a
buffer into its complete newline-terminated lines (the newline is replaced
by a terminator, so a processed line excludes it) and the leftover bytes
after the last newline. -/
def splitLines : List Nat → List (List Nat) × List Nat
  | [] => ([], [])
  | b :: bs =>
    if b = 10 then ([] :: (splitLines bs).1, (splitLines bs).2)
    else
      match splitLines bs with
      | (l :: ls, r) => ((b :: l) :: ls, r)
      | ([], r) => ([], b :: r)

/-- `const int bufferSize = 1024` (line 187). -/
def bufferSize : Nat := 1024

/-- `readCommands` (lines 185–225): repeatedly `recv` into the free tail of
a 1024-byte buffer, process every complete line now in the buffer, shift
the unprocessed leftover down, and stop on end of input or on a full buffer
holding no newline ("Command too long, closing connection").  `input` is
the byte stream still to arrive and `sched` the adversarial chunking:
iteration `k` delivers `min (max sched[k] 1) (min space remaining)` bytes —
any positive number of bytes up to the free space, as a blocking `recv`
may.  Returns the lines handed to `processCommand`, in order, and whether
the server closed the connection because of an oversized line.  The
`bufferSize ≤ buf.length` guard totalises the function; it is unreachable
from an empty buffer because the loop breaks as soon as the buffer fills
without a newline. -/
def readLoop (input buf sched : List Nat) : List (List Nat) × Bool :=
  if h1 : bufferSize ≤ buf.length then ([], true)
  else if h2 : input = [] then ([], false)
  else
    let r := min (max (sched.headD (bufferSize - buf.length)) 1)
                 (min (bufferSize - buf.length) input.length)
    let p := splitLines (buf ++ input.take r)
    if p.2.length = bufferSize then (p.1, true)
    else
      let q := readLoop (input.drop r) p.2 (sched.drop 1)
      (p.1 ++ q.1, q.2)
termination_by input.length
decreasing_by
  have hlen : input.length ≠ 0 := fun h => h2 (List.eq_nil_of_length_eq_zero h)
  simp only [List.length_drop]
  omega

/-- The number of bytes one `recv` call returns: the adversarial request
`sched.headD`, forced positive (a blocking `recv` on an open connection
returns at least one byte) and capped by the free buffer space and by the
bytes remaining in the stream. -/
def recvLen (input buf sched : List Nat) : Nat :=
  min (max (sched.headD (bufferSize - buf.length)) 1)
      (min (bufferSize - buf.length) input.length)

/-- The scanf whitespace class: space, \t, \n, \v, \f, \r. -/
def isWS (b : Nat) : Bool :=
  decide (b = 32 ∨ b = 9 ∨ b = 10 ∨ b = 11 ∨ b = 12 ∨ b = 13)

/-- Value of one digit in the given base (10 or 16), `none` when the byte
is not a digit of that base. -/
def digitVal (base b : Nat) : Option Nat :=
  if 48 ≤ b ∧ b ≤ 57 then some (b - 48)
  else if base = 16 ∧ 97 ≤ b ∧ b ≤ 102 then some (b - 87)
  else if base = 16 ∧ 65 ≤ b ∧ b ≤ 70 then some (b - 55)
  else none

/-- Whether a byte is a digit of the given base. -/
def isDigitB (base b : Nat) : Bool := (digitVal base b).isSome

/-- `2 ^ 64`, the modulus of a `uint64_t`. -/
def w64 : Nat := 2 ^ 64

/-- One scanf integer conversion (`%SCNu64`, `%SCNx64`, `%hhu` before its
narrowing store): skip whitespace, then an optional sign, an optional
`0x`/`0X` marker when `base = 16` and a hex digit follows it, then a
maximal non-empty run of digits of the base.  The converted value keeps the
low 64 bits and a leading minus negates modulo `2 ^ 64`, as the underlying
`strtoul`-style arithmetic does.  Returns `none` (a conversion failure,
lowering the sscanf return count) when no digit is found, else the value
and the unconsumed rest. -/
def scanUInt (base : Nat) (s : List Nat) : Option (Nat × List Nat) :=
  let s1 := s.dropWhile isWS
  let signed :=
    match s1 with
    | 45 :: t => (true, t)
    | 43 :: t => (false, t)
    | _ => (false, s1)
  let s3 :=
    match signed.2 with
    | 48 :: x :: t =>
      if base = 16 ∧ (x = 120 ∨ x = 88) ∧ isDigitB 16 (t.headD 0) then t else signed.2
    | _ => signed.2
  let ds := s3.takeWhile (isDigitB base)
  if ds = [] then none
  else
    let v := (ds.map (fun b => (digitVal base b).getD 0)).foldl (fun v d => v * base + d) 0
    let v64 := v % w64
    some ((if signed.1 then (w64 - v64) % w64 else v64), s3.dropWhile (isDigitB base))

/-- Literal characters of a scanf format: each must match the next input
byte exactly; returns the rest of the input on success. -/
def stripLit : List Nat → List Nat → Option (List Nat)
  | [], s => some s
  | _ :: _, [] => none
  | c :: cs, b :: bs => if b = c then stripLit cs bs else none

/-- `sscanf(command, "match %SCNx64 %hhu\n", &hash, &maxDistance)`
(line 143): the literal `match`, a 64-bit hex conversion, and an 8-bit
decimal conversion whose value is stored into an `unsigned char` (reduced
mod 256).  Once both conversions succeed the call returns 2 whatever bytes
follow — the trailing whitespace directive cannot undo them — so any line
with a well-formed head is accepted. -/
def parseMatchCmd (s : List Nat) : Option (Nat × Nat) :=
  match stripLit [109, 97, 116, 99, 104] s with
  | none => none
  | some r1 =>
    match scanUInt 16 r1 with
    | none => none
    | some (h, r2) =>
      match scanUInt 10 r2 with
      | none => none
      | some (d, _) => some (h, d % 256)

/-- `sscanf(command, "add %SCNu64 %SCNx64\n", &dbId, &hash)` (line 170):
the literal `add`, a 64-bit decimal conversion, and a 64-bit hex
conversion; trailing bytes are likewise ignored once both succeed. -/
def parseAddCmd (s : List Nat) : Option (Nat × Nat) :=
  match stripLit [97, 100, 100] s with
  | none => none
  | some r1 =>
    match scanUInt 10 r1 with
    | none => none
    | some (dbId, r2) =>
      match scanUInt 16 r2 with
      | none => none
      | some (h, _) => some (dbId, h)

/-- The mutable globals `processCommand` touches: the shard array
`GBLnodeLists` and the result vector `GBLsearchResults`, which persists
between commands and is cleared afresh by each `search`. -/
structure ServerState where
  shards : List (List Node)
  results : List Match
deriving DecidableEq, Repr

/-- The text the response loop of a `match` command formats (lines
152–166): one line `"%PRIu64 %u\n"` per result, in collection order,
nothing when the result set is empty.  In the program as shipped these
bytes never reach the client — see `processCommand` for where the `send`
goes. -/
def formatResults (ms : List Match) : String :=
  ms.foldl (fun acc m => acc ++ Nat.repr m.dbId ++ " " ++ Nat.repr m.distance ++ "\n") ""

/-- `processCommand` (lines 135–179): try the `match` grammar, then the
`add` grammar.  A `match` runs `search` and then tries to send one
response line per collected result — but to `acceptedSocket` (line 159),
the file-scope descriptor declared in `hashMatcher.h`, not to the `socket`
parameter: `main`'s local variable of the same name (line 366) shadows the
file-scope one, which therefore keeps its zero initialisation and never
names the accepted connection.  The first `send` on that stale descriptor
fails, `numBytesSent != responseLen` breaks the response loop (lines
161–165), and no response byte ever reaches the client.  The `String`
returned here is what the client's connection receives: empty for every
command.  An `add` calls `add(dbId, hash)` — note the argument order
against `add`'s `(hash, dbId)` signature.  Anything else only logs
"Invalid command received" (the `Bool`).  A real command line cannot
contain a newline, and for these two formats an embedded NUL byte fails a
conversion exactly where the C string would end, so lines are taken
whole. -/
def processCommand (st : ServerState) (line : List Nat) : ServerState × String × Bool :=
  match parseMatchCmd line with
  | some (h, d) =>
    let res := search h d st.results st.shards
    (⟨st.shards, res⟩, "", false)
  | none =>
    match parseAddCmd line with
    | some (dbId, h) => (⟨add dbId h st.shards, st.results⟩, "", false)
    | none => (st, "", true)

/-- Process a sequence of already-framed command lines in order, threading
the server state and concatenating the responses. -/
def runLines (st : ServerState) : List (List Nat) → ServerState × String
  | [] => (st, "")
  | l :: ls =>
    let p := processCommand st l
    let q := runLines p.1 ls
    (q.1, p.2.1 ++ q.2)

/-- One whole connection: frame the byte stream into lines (`readLoop`)
and process each line in arrival order.  Composing the two is faithful
because command processing never feeds back into the framing loop. -/
def runServer (st : ServerState) (input sched : List Nat) :
    (ServerState × String) × Bool :=
  let p := readLoop input [] sched
  (runLines st p.1, p.2)

/-- Startup (`main`, line 327): `GBLnodeLists = new std::list<Node>[N]` —
`n` empty shards and an empty result vector. -/
def initState (n : Nat) : ServerState := ⟨List.replicate n [], []⟩

/-- ASCII bytes of a string literal. -/
def strBytes (s : String) : List Nat := s.toList.map Char.toNat

/-! ### Bit counting: correctness of the Hamming-distance computation -/

theorem popcountAux_zero (k : Nat) : popcountAux k 0 = 0 := by
  induction k with
  | zero => rfl
  | succ k ih => simp [popcountAux, ih]

theorem popcountAux_eq_sum (k : Nat) : ∀ n, n < 2 ^ k →
    popcountAux k n = ∑ i ∈ Finset.range k, if n.testBit i then 1 else 0 := by
  induction k with
  | zero =>
    intro n hn
    have h0 : n = 0 := by omega
    subst h0
    rfl
  | succ k ih =>
    intro n hn
    have hp : 2 ^ (k + 1) = 2 ^ k * 2 := Nat.pow_succ 2 k
    have hdiv : n / 2 < 2 ^ k := by omega
    rw [Finset.sum_range_succ']
    have hstep : ∀ i ∈ Finset.range k,
        (if n.testBit (i + 1) then (1 : Nat) else 0)
          = if (n / 2).testBit i then 1 else 0 := by
      intro i _
      rw [Nat.testBit_succ]
    rw [Finset.sum_congr rfl hstep, ← ih (n / 2) hdiv]
    have h0 : (if n.testBit 0 then (1 : Nat) else 0) = n % 2 := by
      rw [Nat.testBit_zero]
      rcases Nat.mod_two_eq_zero_or_one n with h | h <;> simp [h]
    rw [h0]
    simp [popcountAux, Nat.add_comm]

theorem distance_eq_card_diffBits (a b : Nat) (ha : a < 2 ^ 64) (hb : b < 2 ^ 64) :
    distance a b = ((Finset.range 64).filter (fun i => a.testBit i ≠ b.testBit i)).card := by
  have hx : a ^^^ b < 2 ^ 64 := Nat.xor_lt_two_pow ha hb
  rw [distance, popcount, popcountAux_eq_sum 64 _ hx, Finset.card_filter]
  apply Finset.sum_congr rfl
  intro i _
  rw [Nat.testBit_xor]
  cases h1 : a.testBit i <;> cases h2 : b.testBit i <;> simp

/-- C6: for all 64-bit values `a` and `b`, the distance computed by a
search worker (`distance`, the popcount of the XOR, lines 280–281) equals
the number of bit positions at which `a` and `b` differ; it is symmetric
and `distance a a = 0`. -/
theorem searchThread_distance_correct (a b : Nat) (ha : a < 2 ^ 64) (hb : b < 2 ^ 64) :
    distance a b = ((Finset.range 64).filter (fun i => a.testBit i ≠ b.testBit i)).card
      ∧ distance a b = distance b a ∧ distance a a = 0 := by
  refine ⟨distance_eq_card_diffBits a b ha hb, ?_, ?_⟩
  · rw [distance, distance, Nat.xor_comm]
  · rw [distance, Nat.xor_self, popcount, popcountAux_zero]

/-- Witness for C6 at `a = 1`, `b = 3`. -/
theorem searchThread_distance_correct_witness :
    ((1 : Nat) < 2 ^ 64 ∧ (3 : Nat) < 2 ^ 64)
      ∧ (distance 1 3 = ((Finset.range 64).filter
            (fun i => Nat.testBit 1 i ≠ Nat.testBit 3 i)).card
          ∧ distance 1 3 = distance 3 1 ∧ distance 1 1 = 0) :=
  ⟨⟨by norm_num, by norm_num⟩,
   searchThread_distance_correct 1 3 (by norm_num) (by norm_num)⟩

/-! ### The parallel search returns exactly the entries within threshold -/

theorem searchThreadRun_eq_filterMap (q d : Nat) (l : List Node) :
    searchThreadRun q d l = l.filterMap
      (fun n => if distance q n.pHash ≤ d
                then some (Match.mk n.dbId (distance q n.pHash)) else none) := by
  rw [searchThreadRun]
  suffices h : ∀ acc : List Match,
      l.foldl (fun acc n =>
          if distance q n.pHash ≤ d
          then acc ++ [Match.mk n.dbId (distance q n.pHash)] else acc) acc
        = acc ++ l.filterMap (fun n =>
            if distance q n.pHash ≤ d
            then some (Match.mk n.dbId (distance q n.pHash)) else none) by
    simpa using h []
  induction l with
  | nil => intro acc; simp
  | cons n t ih =>
    intro acc
    by_cases h : distance q n.pHash ≤ d <;>
      simp [List.filterMap_cons, h, ih]

theorem search_eq_filterMap (q d : Nat) (old : List Match) (shards : List (List Node)) :
    search q d old shards = shards.flatten.filterMap
      (fun n => if distance q n.pHash ≤ d
                then some (Match.mk n.dbId (distance q n.pHash)) else none) := by
  rw [search]
  suffices h : ∀ acc : List Match,
      shards.foldl (fun acc l => acc ++ searchThreadRun q d l) acc
        = acc ++ shards.flatten.filterMap (fun n =>
            if distance q n.pHash ≤ d
            then some (Match.mk n.dbId (distance q n.pHash)) else none) by
    simpa using h []
  induction shards with
  | nil => intro acc; simp
  | cons l t ih =>
    intro acc
    rw [List.foldl_cons, ih (acc ++ searchThreadRun q d l), searchThreadRun_eq_filterMap,
        List.flatten_cons, List.filterMap_append, List.append_assoc]

/-- C1: for every store state and every query, `search` run without a
concurrent insert yields exactly one `Match` per stored entry within the
threshold — no omissions, no extras, and no leftovers from the previous
search (`old`, the prior contents of `GBLsearchResults`, never shows in the
result) — and every collected `Match` has distance at most the
threshold. -/
theorem search_threshold_complete (q d : Nat) (old : List Match) (shards : List (List Node)) :
    search q d old shards = shards.flatten.filterMap
        (fun n => if distance q n.pHash ≤ d
                  then some (Match.mk n.dbId (distance q n.pHash)) else none)
      ∧ ∀ m ∈ search q d old shards, m.distance ≤ d := by
  refine ⟨search_eq_filterMap q d old shards, ?_⟩
  intro m hm
  rw [search_eq_filterMap] at hm
  rcases List.mem_filterMap.1 hm with ⟨n, _, hf⟩
  by_cases h : distance q n.pHash ≤ d
  · rw [if_pos h] at hf
    cases hf
    exact h
  · rw [if_neg h] at hf
    cases hf

/-! ### The insertion policy: code scan versus the specification's wording -/

theorem getD_append_len (a l : List (List Node)) (k : Nat) :
    (a ++ l).getD (a.length + k) [] = l.getD k [] := by
  rw [List.getD_append_right a l [] (a.length + k) (Nat.le_add_right _ _)]
  congr 1
  omega

theorem set_append_len (a l : List (List Node)) (k : Nat) (x : List Node) :
    (a ++ l).set (a.length + k) x = a ++ l.set k x := by
  induction a with
  | nil => simp
  | cons c t ih =>
    have h : t.length + 1 + k = t.length + k + 1 := by omega
    simp only [List.cons_append, List.length_cons, h, List.set_cons_succ, ih]

theorem addScan_foldl (node : Node) (rest : List (List Node)) :
    ∀ (done : List (List Node)) (l0 : List Node) (b : Bool),
      (List.range' done.length rest.length).foldl
        (fun st i =>
          if specSizeAt st.1 (i + 1) < specSizeAt st.1 i
          then (specInsertAt st.1 (i + 1) node, true) else st)
        (done ++ l0 :: rest, b)
      = (done ++ (addScan node l0 rest).1, b || (addScan node l0 rest).2) := by
  induction rest with
  | nil =>
    intro done l0 b
    simp [addScan]
  | cons l1 t ih =>
    intro done l0 b
    rw [List.length_cons, List.range'_succ, List.foldl_cons]
    have hg0 : (done ++ l0 :: l1 :: t).getD done.length [] = l0 := by
      simpa using getD_append_len done (l0 :: l1 :: t) 0
    have hg1 : (done ++ l0 :: l1 :: t).getD (done.length + 1) [] = l1 := by
      simpa using getD_append_len done (l0 :: l1 :: t) 1
    have hs0 : specSizeAt (done ++ l0 :: l1 :: t) done.length = l0.length := by
      rw [specSizeAt, hg0]
    have hs1 : specSizeAt (done ++ l0 :: l1 :: t) (done.length + 1) = l1.length := by
      rw [specSizeAt, hg1]
    have hshape : done ++ l0 :: l1 :: t = (done ++ [l0]) ++ l1 :: t := by
      simp
    have hlen1 : (done ++ [l0]).length = done.length + 1 := by
      simp
    by_cases hc : l1.length < l0.length
    · rw [if_pos (by rw [hs0, hs1]; exact hc)]
      have hins : specInsertAt (done ++ l0 :: l1 :: t) (done.length + 1) node
          = (done ++ [l0]) ++ (node :: l1) :: t := by
        rw [specInsertAt]
        rw [hg1, hshape, ← hlen1]
        have := set_append_len (done ++ [l0]) (l1 :: t) 0 (node :: l1)
        simpa using this
      rw [hins, ← hlen1]
      rw [ih (done ++ [l0]) (node :: l1) true]
      simp [addScan, hc]
    · rw [if_neg (by rw [hs0, hs1]; exact hc)]
      rw [hshape, ← hlen1]
      rw [ih (done ++ [l0]) l1 b]
      simp [addScan, hc]

/-- C2: the insertion policy of `add` is exactly the specification's:
scan shard pairs `(i, i+1)` for `i` from `0` to `N-2`, insert into shard
`i+1` at every pair where it is currently smaller than shard `i` without
stopping at the first qualifying pair (so one logical add can create more
than one physical entry), and insert into shard 0 when no pair qualifies
(including when `N = 1`).  `specAdd` transcribes that wording; `add`
transcribes the code. -/
theorem add_follows_spec_policy (hash dbId : Nat) (shards : List (List Node)) :
    add hash dbId shards = specAdd hash dbId shards := by
  cases shards with
  | nil => rfl
  | cons l0 rest =>
    rw [add, specAdd]
    simp only [List.length_cons, Nat.add_sub_cancel, List.range_eq_range']
    have h := addScan_foldl (Node.mk hash dbId) rest [] l0 false
    simp only [List.length_nil, List.nil_append, Bool.false_or] at h
    rw [h]
    rfl

/-! ### How many entries one `add` creates, and where they go -/

theorem addScan_length (node : Node) (rest : List (List Node)) :
    ∀ l0, (addScan node l0 rest).1.length = rest.length + 1 := by
  induction rest with
  | nil => intro l0; rfl
  | cons l1 t ih =>
    intro l0
    by_cases h : l1.length < l0.length <;> simp [addScan, h, ih]

theorem addScan_flag_false (node : Node) (rest : List (List Node)) :
    ∀ l0, (addScan node l0 rest).2 = false → addScan node l0 rest = (l0 :: rest, false) := by
  induction rest with
  | nil => intro l0 _; rfl
  | cons l1 t ih =>
    intro l0 hf
    by_cases h : l1.length < l0.length
    · rw [addScan] at hf
      simp [h] at hf
    · rw [addScan] at hf ⊢
      simp only [if_neg h] at hf ⊢
      rw [ih l1 hf]

theorem totalSize_cons (l : List Node) (ls : List (List Node)) :
    totalSize (l :: ls) = l.length + totalSize ls := by
  simp [totalSize]

theorem addScan_size (node : Node) (rest : List (List Node)) :
    ∀ l0, totalSize (l0 :: rest) ≤ totalSize (addScan node l0 rest).1
      ∧ totalSize (addScan node l0 rest).1 ≤ totalSize (l0 :: rest) + rest.length
      ∧ ((addScan node l0 rest).2 = true →
          totalSize (l0 :: rest) + 1 ≤ totalSize (addScan node l0 rest).1) := by
  induction rest with
  | nil =>
    intro l0
    refine ⟨le_refl _, Nat.le_add_right _ _, ?_⟩
    intro h
    simp [addScan] at h
  | cons l1 t ih =>
    intro l0
    by_cases h : l1.length < l0.length
    · rcases ih (node :: l1) with ⟨h1, h2, _⟩
      simp only [totalSize_cons, List.length_cons] at h1 h2
      have hs : addScan node l0 (l1 :: t) = (l0 :: (addScan node (node :: l1) t).1, true) := by
        simp [addScan, h]
      rw [hs]
      refine ⟨?_, ?_, fun _ => ?_⟩ <;>
        · simp only [totalSize_cons, List.length_cons]
          omega
    · rcases ih l1 with ⟨h1, h2, h3⟩
      simp only [totalSize_cons] at h1 h2 h3
      have hs : addScan node l0 (l1 :: t)
          = (l0 :: (addScan node l1 t).1, (addScan node l1 t).2) := by
        simp [addScan, h]
      rw [hs]
      refine ⟨?_, ?_, fun hf => ?_⟩
      · simp only [totalSize_cons]
        omega
      · simp only [totalSize_cons, List.length_cons]
        omega
      · have := h3 hf
        simp only [totalSize_cons]
        omega

theorem addScan_getD (node : Node) (rest : List (List Node)) :
    ∀ l0 (i : Nat),
      (addScan node l0 rest).1.getD i [] = (l0 :: rest).getD i []
      ∨ ((addScan node l0 rest).1.getD i [] = node :: (l0 :: rest).getD i [] ∧ 0 < i) := by
  induction rest with
  | nil =>
    intro l0 i
    left
    rfl
  | cons l1 t ih =>
    intro l0 i
    by_cases h : l1.length < l0.length
    · simp only [addScan, if_pos h]
      cases i with
      | zero => left; rfl
      | succ j =>
        have hh := ih (node :: l1) j
        cases j with
        | zero =>
          rcases hh with hl | ⟨_, hj⟩
          · right
            constructor
            · simpa using hl
            · omega
          · omega
        | succ j2 =>
          rcases hh with hl | ⟨hr, _⟩
          · left
            simpa using hl
          · right
            constructor
            · simpa using hr
            · omega
    · simp only [addScan, if_neg h]
      cases i with
      | zero => left; rfl
      | succ j =>
        have hh := ih l1 j
        rcases hh with hl | ⟨hr, _⟩
        · left
          simpa using hl
        · right
          constructor
          · simpa using hr
          · omega

theorem add_eq_scan (hash dbId : Nat) (l0 : List Node) (rest : List (List Node)) :
    add hash dbId (l0 :: rest)
      = (if (addScan (Node.mk hash dbId) l0 rest).2
         then (addScan (Node.mk hash dbId) l0 rest).1
         else (addScan (Node.mk hash dbId) l0 rest).1.set 0
                (Node.mk hash dbId :: (addScan (Node.mk hash dbId) l0 rest).1.getD 0 [])) :=
  rfl

/-- C9: with at least one shard, one call to `add` keeps the shard count,
appends at least one and at most `max 1 (N - 1)` nodes in total, removes
nothing (every shard is either unchanged or gets exactly the new node
prepended once), and the pass works on live sizes: on shard sizes
`(2, 1, 1)` the insertion into shard 1 makes the later pair `(1, 2)`
qualify too, giving sizes `(2, 2, 2)`. -/
theorem add_append_count (hash dbId : Nat) (l0 : List Node) (rest : List (List Node)) :
    (add hash dbId (l0 :: rest)).length = (l0 :: rest).length
    ∧ totalSize (l0 :: rest) + 1 ≤ totalSize (add hash dbId (l0 :: rest))
    ∧ totalSize (add hash dbId (l0 :: rest))
        ≤ totalSize (l0 :: rest) + max 1 ((l0 :: rest).length - 1)
    ∧ (∀ i, (add hash dbId (l0 :: rest)).getD i [] = (l0 :: rest).getD i []
          ∨ (add hash dbId (l0 :: rest)).getD i []
              = Node.mk hash dbId :: (l0 :: rest).getD i [])
    ∧ (add hash dbId [[Node.mk 1 1, Node.mk 2 2], [Node.mk 3 3], [Node.mk 4 4]]).map
        List.length = [2, 2, 2] := by
  have hsz := addScan_size (Node.mk hash dbId) rest l0
  have hlen := addScan_length (Node.mk hash dbId) rest l0
  have hmax : (l0 :: rest).length - 1 = rest.length := by simp
  rw [add_eq_scan, hmax]
  by_cases hf : (addScan (Node.mk hash dbId) l0 rest).2 = true
  · rw [if_pos hf]
    refine ⟨by rw [hlen]; rfl, hsz.2.2 hf, ?_, ?_, rfl⟩
    · have h1 := hsz.2.1
      have h2 : rest.length ≤ max 1 rest.length := Nat.le_max_right _ _
      omega
    · intro i
      rcases addScan_getD (Node.mk hash dbId) rest l0 i with h | ⟨h, _⟩
      · exact Or.inl h
      · exact Or.inr h
  · rw [if_neg hf]
    have hf2 : (addScan (Node.mk hash dbId) l0 rest).2 = false := by
      revert hf
      cases (addScan (Node.mk hash dbId) l0 rest).2 <;> simp
    have heq := addScan_flag_false (Node.mk hash dbId) rest l0 hf2
    rw [heq]
    simp only [List.getD_cons_zero, List.set_cons_zero]
    refine ⟨by simp, ?_, ?_, ?_, rfl⟩
    · rw [totalSize_cons, totalSize_cons, List.length_cons]
      omega
    · rw [totalSize_cons, totalSize_cons, List.length_cons]
      have h2 : 1 ≤ max 1 rest.length := Nat.le_max_left _ _
      omega
    · intro i
      cases i with
      | zero => exact Or.inr rfl
      | succ j => exact Or.inl rfl

/-- C3 counterexample: on shard sizes `(2, 1, 0)` one `add` inserts two
entries, into shard 1 and into shard 2, so `insert` does not add one entry
to exactly one shard. -/
theorem add_single_insert_cex :
    totalSize [[Node.mk 1 1, Node.mk 2 2], [Node.mk 3 3], []] = 3
    ∧ totalSize (add 5 7 [[Node.mk 1 1, Node.mk 2 2], [Node.mk 3 3], []]) = 5
    ∧ ([[Node.mk 1 1, Node.mk 2 2], [Node.mk 3 3], ([] : List Node)]).map List.length
        = [2, 1, 0]
    ∧ (add 5 7 [[Node.mk 1 1, Node.mk 2 2], [Node.mk 3 3], []]).map List.length
        = [2, 2, 1] := by
  decide

theorem addScan_no_qualify (node : Node) (rest : List (List Node)) :
    ∀ l0, (∀ i ∈ List.range rest.length,
        ¬ ((l0 :: rest).getD (i + 1) []).length < ((l0 :: rest).getD i []).length) →
      addScan node l0 rest = (l0 :: rest, false) := by
  induction rest with
  | nil => intro l0 _; rfl
  | cons l1 t ih =>
    intro l0 hq
    have h0 : ¬ l1.length < l0.length := by
      have := hq 0 (by simp)
      simpa using this
    rw [addScan]
    simp only [if_neg h0]
    have ht : ∀ i ∈ List.range t.length,
        ¬ ((l1 :: t).getD (i + 1) []).length < ((l1 :: t).getD i []).length := by
      intro i hi
      have hmem : i + 1 ∈ List.range (l1 :: t).length := by
        simp only [List.mem_range, List.length_cons] at hi ⊢
        omega
      have := hq (i + 1) hmem
      simpa using this
    rw [ih l1 ht]

/-- C3 amended: for every non-empty shard configuration and every 64-bit
`(id, hash)` input, `insert` adds at least one entry and cannot fail; it
adds one entry to exactly one shard — shard 0 — whenever no adjacent pair
has a strictly smaller successor (in particular when all sizes are equal or
`N = 1`), but when several pairs qualify it adds one entry to each
qualifying shard `i+1`. -/
theorem add_inserts_at_least_one (hash dbId : Nat) (l0 : List Node) (rest : List (List Node)) :
    totalSize (l0 :: rest) + 1 ≤ totalSize (add hash dbId (l0 :: rest))
    ∧ ((∀ i ∈ List.range rest.length,
          ¬ ((l0 :: rest).getD (i + 1) []).length < ((l0 :: rest).getD i []).length) →
        add hash dbId (l0 :: rest) = (Node.mk hash dbId :: l0) :: rest) := by
  constructor
  · exact (add_append_count hash dbId l0 rest).2.1
  · intro hq
    rw [add_eq_scan, addScan_no_qualify (Node.mk hash dbId) rest l0 hq]
    rfl

/-- Witness for C3's amended claim on two balanced shards. -/
theorem add_inserts_at_least_one_witness :
    totalSize [([] : List Node), []] + 1 ≤ totalSize (add 5 7 [([] : List Node), []])
    ∧ add 5 7 [([] : List Node), []] = [[Node.mk 5 7], []] :=
  ⟨(add_inserts_at_least_one 5 7 [] [[]]).1,
   by rw [(add_inserts_at_least_one 5 7 [] [[]]).2 (by decide)]⟩

/-! ### Line framing: the buffer splitter -/

theorem splitLines_noNL (a : List Nat) (h : 10 ∉ a) : splitLines a = ([], a) := by
  induction a with
  | nil => rfl
  | cons c t ih =>
    have hc : ¬ c = 10 := fun e => h (by simp [e])
    have ht : 10 ∉ t := fun m => h (List.mem_cons_of_mem _ m)
    rw [splitLines, if_neg hc, ih ht]

theorem splitLines_leftover_noNL (a : List Nat) : 10 ∉ (splitLines a).2 := by
  induction a with
  | nil => simp [splitLines]
  | cons c t ih =>
    by_cases hc : c = 10
    · subst hc
      rw [splitLines, if_pos rfl]
      exact ih
    · rw [splitLines, if_neg hc]
      rcases hp : splitLines t with ⟨ls, r⟩
      rw [hp] at ih
      cases ls with
      | cons l ls2 => exact ih
      | nil =>
        intro hm
        rcases List.mem_cons.1 hm with he | hm2
        · exact hc he.symm
        · exact ih hm2

theorem splitLines_leftover_len (a : List Nat) : (splitLines a).2.length ≤ a.length := by
  induction a with
  | nil => simp [splitLines]
  | cons c t ih =>
    by_cases hc : c = 10
    · subst hc
      rw [splitLines, if_pos rfl]
      simpa using Nat.le_succ_of_le ih
    · rw [splitLines, if_neg hc]
      rcases hp : splitLines t with ⟨ls, r⟩
      rw [hp] at ih
      cases ls with
      | cons l ls2 => simpa using Nat.le_succ_of_le ih
      | nil => simpa using ih

theorem splitLines_line (l rest : List Nat) (h : 10 ∉ l) :
    splitLines (l ++ 10 :: rest) = (l :: (splitLines rest).1, (splitLines rest).2) := by
  induction l with
  | nil => rw [List.nil_append, splitLines, if_pos rfl]
  | cons c t ih =>
    have hc : ¬ c = 10 := fun e => h (by simp [e])
    have ht : 10 ∉ t := fun m => h (List.mem_cons_of_mem _ m)
    rw [List.cons_append, splitLines, if_neg hc, ih ht]

theorem splitLines_append (a b : List Nat) :
    splitLines (a ++ b)
      = ((splitLines a).1 ++ (splitLines ((splitLines a).2 ++ b)).1,
         (splitLines ((splitLines a).2 ++ b)).2) := by
  induction a with
  | nil => simp [splitLines]
  | cons c t ih =>
    by_cases hc : c = 10
    · subst hc
      rw [List.cons_append, splitLines, if_pos rfl, splitLines, if_pos rfl, ih]
      simp
    · rw [List.cons_append, splitLines, if_neg hc]
      conv_rhs => rw [splitLines, if_neg hc]
      rw [ih]
      rcases hp : splitLines t with ⟨ls, r⟩
      cases ls with
      | cons l ls2 => rfl
      | nil =>
        rcases hq : splitLines (r ++ b) with ⟨ls2, r2⟩
        conv_rhs => rw [List.cons_append, splitLines, if_neg hc, hq]
        cases ls2 <;> simp

theorem splitLines_first_long (x y : List Nat) (hx : 10 ∉ x) :
    (splitLines (x ++ y)).1 = []
    ∨ ∃ l ls, (splitLines (x ++ y)).1 = l :: ls ∧ x.length ≤ l.length := by
  induction x with
  | nil =>
    rcases hq : splitLines y with ⟨ls, r⟩
    cases ls with
    | nil => left; simp [hq]
    | cons l ls2 => right; exact ⟨l, ls2, by simp [hq], Nat.zero_le _⟩
  | cons c t ih =>
    have hc : ¬ c = 10 := fun e => hx (by simp [e])
    have ht : 10 ∉ t := fun m => hx (List.mem_cons_of_mem _ m)
    rw [List.cons_append, splitLines, if_neg hc]
    rcases hq : splitLines (t ++ y) with ⟨ls, r⟩
    rcases ih ht with h | ⟨l, ls2, h1, h2⟩
    · rw [hq] at h
      simp at h
      subst h
      left
      rfl
    · rw [hq] at h1
      simp at h1
      subst h1
      right
      refine ⟨c :: l, ls2, rfl, ?_⟩
      simp only [List.length_cons]
      omega

/-! ### The read loop: chunking invariance and the oversized-line exit -/

theorem readLoop_full (input buf sched : List Nat) (h : bufferSize ≤ buf.length) :
    readLoop input buf sched = ([], true) := by
  rw [readLoop, dif_pos h]

theorem readLoop_eof (buf sched : List Nat) (h1 : ¬ bufferSize ≤ buf.length) :
    readLoop [] buf sched = ([], false) := by
  rw [readLoop, dif_neg h1, dif_pos rfl]

theorem readLoop_step2 (input buf sched : List Nat)
    (h1 : ¬ bufferSize ≤ buf.length) (h2 : ¬ input = []) :
    readLoop input buf sched =
      (if (splitLines (buf ++ input.take (recvLen input buf sched))).2.length = bufferSize
       then ((splitLines (buf ++ input.take (recvLen input buf sched))).1, true)
       else ((splitLines (buf ++ input.take (recvLen input buf sched))).1
               ++ (readLoop (input.drop (recvLen input buf sched))
                     (splitLines (buf ++ input.take (recvLen input buf sched))).2
                     (sched.drop 1)).1,
             (readLoop (input.drop (recvLen input buf sched))
                 (splitLines (buf ++ input.take (recvLen input buf sched))).2
                 (sched.drop 1)).2)) := by
  rw [readLoop, dif_neg h1, dif_neg h2]
  rfl

theorem recvLen_pos (input buf sched : List Nat)
    (h1 : ¬ bufferSize ≤ buf.length) (h2 : ¬ input = []) :
    1 ≤ recvLen input buf sched
    ∧ recvLen input buf sched ≤ bufferSize - buf.length
    ∧ recvLen input buf sched ≤ input.length := by
  have hlen : input.length ≠ 0 := fun h => h2 (List.eq_nil_of_length_eq_zero h)
  rw [recvLen]
  simp only [bufferSize] at h1 ⊢
  omega

theorem readLoop_lines (n : Nat) : ∀ (input buf sched : List Nat), input.length ≤ n →
    10 ∉ buf → buf.length ≤ bufferSize - 1 →
    (∀ l ∈ (splitLines (buf ++ input)).1, l.length ≤ bufferSize - 1) →
    (readLoop input buf sched).1 = (splitLines (buf ++ input)).1 := by
  induction n with
  | zero =>
    intro input buf sched hn hb hblen hv
    have hin : input = [] := by
      cases input with
      | nil => rfl
      | cons a t => simp at hn
    subst hin
    rw [readLoop_eof buf sched (by simp only [bufferSize] at hblen ⊢; omega)]
    rw [List.append_nil, splitLines_noNL buf hb]
  | succ n ih =>
    intro input buf sched hn hb hblen hv
    by_cases hin : input = []
    · subst hin
      rw [readLoop_eof buf sched (by simp only [bufferSize] at hblen ⊢; omega)]
      rw [List.append_nil, splitLines_noNL buf hb]
    · have hb1 : ¬ bufferSize ≤ buf.length := by
        simp only [bufferSize] at hblen ⊢
        omega
      obtain ⟨hr1, hr2, hr3⟩ := recvLen_pos input buf sched hb1 hin
      rw [readLoop_step2 input buf sched hb1 hin]
      have hsplit : buf ++ input
          = (buf ++ input.take (recvLen input buf sched))
              ++ input.drop (recvLen input buf sched) := by
        rw [List.append_assoc, List.take_append_drop]
      rw [hsplit, splitLines_append (buf ++ input.take (recvLen input buf sched))
            (input.drop (recvLen input buf sched))]
      by_cases hfull :
          (splitLines (buf ++ input.take (recvLen input buf sched))).2.length = bufferSize
      · rw [if_pos hfull]
        suffices hnil : (splitLines ((splitLines (buf ++ input.take (recvLen input buf sched))).2
            ++ input.drop (recvLen input buf sched))).1 = [] by
          rw [hnil, List.append_nil]
        rcases splitLines_first_long
            (splitLines (buf ++ input.take (recvLen input buf sched))).2
            (input.drop (recvLen input buf sched))
            (splitLines_leftover_noNL _) with h | ⟨l, ls, hl, hlong⟩
        · exact h
        · exfalso
          have hmem : l ∈ (splitLines (buf ++ input)).1 := by
            rw [hsplit, splitLines_append]
            refine List.mem_append_right _ ?_
            rw [hl]
            exact List.mem_cons_self _ _
          have hvl := hv l hmem
          rw [hfull] at hlong
          simp only [bufferSize] at hvl hlong
          omega
      · rw [if_neg hfull]
        have hlolen : (splitLines (buf ++ input.take (recvLen input buf sched))).2.length
            ≤ bufferSize - 1 := by
          have ha := splitLines_leftover_len (buf ++ input.take (recvLen input buf sched))
          have hb2 : (buf ++ input.take (recvLen input buf sched)).length ≤ bufferSize := by
            rw [List.length_append, List.length_take]
            simp only [bufferSize] at hr2 ⊢
            omega
          simp only [bufferSize] at ha hb2 hfull ⊢
          omega
        have hrec := ih (input.drop (recvLen input buf sched))
            (splitLines (buf ++ input.take (recvLen input buf sched))).2
            (sched.drop 1)
            (by rw [List.length_drop]; omega)
            (splitLines_leftover_noNL _)
            hlolen
            (by
              intro l hm
              apply hv
              rw [hsplit, splitLines_append]
              exact List.mem_append_right _ hm)
        rw [hrec]

theorem readLoop_overflow (n : Nat) : ∀ (input buf sched : List Nat), input.length ≤ n →
    buf.length ≤ bufferSize - 1 →
    10 ∉ (buf ++ input).take bufferSize →
    bufferSize ≤ (buf ++ input).length →
    readLoop input buf sched = ([], true) := by
  induction n with
  | zero =>
    intro input buf sched hn hblen hnl htot
    have hin : input = [] := by
      cases input with
      | nil => rfl
      | cons a t => simp at hn
    subst hin
    rw [List.append_nil] at htot
    simp only [bufferSize] at hblen htot
    omega
  | succ n ih =>
    intro input buf sched hn hblen hnl htot
    have hin : ¬ input = [] := by
      intro h
      subst h
      rw [List.append_nil] at htot
      simp only [bufferSize] at hblen htot
      omega
    have hb1 : ¬ bufferSize ≤ buf.length := by
      simp only [bufferSize] at hblen ⊢
      omega
    obtain ⟨hr1, hr2, hr3⟩ := recvLen_pos input buf sched hb1 hin
    rw [readLoop_step2 input buf sched hb1 hin]
    have hnewlen : (buf ++ input.take (recvLen input buf sched)).length ≤ bufferSize := by
      rw [List.length_append, List.length_take]
      simp only [bufferSize] at hr2 ⊢
      omega
    have hnew_eq : buf ++ input.take (recvLen input buf sched)
        = (buf ++ input).take (buf.length + recvLen input buf sched) := by
      rw [List.take_append]
    have hnoNL_new : 10 ∉ buf ++ input.take (recvLen input buf sched) := by
      intro hm
      apply hnl
      rw [hnew_eq] at hm
      have htt : (buf ++ input).take (buf.length + recvLen input buf sched)
          = ((buf ++ input).take bufferSize).take (buf.length + recvLen input buf sched) := by
        rw [List.take_take]
        have hle : buf.length + recvLen input buf sched ≤ bufferSize := by
          rw [List.length_append, List.length_take] at hnewlen
          simp only [bufferSize] at hnewlen hr2 ⊢
          omega
        rw [Nat.min_eq_left hle]
      rw [htt] at hm
      exact List.take_subset _ _ hm
    have hsl := splitLines_noNL _ hnoNL_new
    have hsplit : buf ++ input
        = (buf ++ input.take (recvLen input buf sched))
            ++ input.drop (recvLen input buf sched) := by
      rw [List.append_assoc, List.take_append_drop]
    by_cases hfull :
        (splitLines (buf ++ input.take (recvLen input buf sched))).2.length = bufferSize
    · rw [if_pos hfull, hsl]
    · rw [if_neg hfull]
      have hbuflen2 : (buf ++ input.take (recvLen input buf sched)).length ≤ bufferSize - 1 := by
        rw [hsl] at hfull
        simp only [bufferSize] at hnewlen hfull ⊢
        omega
      have hrec := ih (input.drop (recvLen input buf sched))
          (splitLines (buf ++ input.take (recvLen input buf sched))).2
          (sched.drop 1)
          (by rw [List.length_drop]; omega)
          (by rw [hsl]; exact hbuflen2)
          (by rw [hsl, ← hsplit]; exact hnl)
          (by rw [hsl, ← hsplit]; exact htot)
      rw [hrec, hsl]
      rfl

/-- C4: for arbitrary valid multi-command input (every complete line fits
the 1024-byte budget, newline included) split into arbitrary chunk
boundaries (`sched`), the byte-stream reader processes exactly the complete
newline-terminated lines of the input, each exactly once, in arrival
order — the same sequence as splitting the whole input in one block. -/
theorem readCommands_framing (input sched : List Nat)
    (hv : ∀ l ∈ (splitLines input).1, l.length ≤ bufferSize - 1) :
    (readLoop input [] sched).1 = (splitLines input).1 := by
  have h := readLoop_lines input.length input [] sched (le_refl _)
    (by simp) (by simp [bufferSize]) (by simpa using hv)
  simpa using h

/-- Witness for C4: a two-command stream delivered in chunks of
3, 1, 5, 2, ... bytes. -/
theorem readCommands_framing_witness :
    (∀ l ∈ (splitLines (strBytes "add 1 2\nmatch 0 64\n")).1, l.length ≤ bufferSize - 1)
    ∧ (readLoop (strBytes "add 1 2\nmatch 0 64\n") [] [3, 1, 5, 2]).1
        = (splitLines (strBytes "add 1 2\nmatch 0 64\n")).1 :=
  ⟨by decide, readCommands_framing (strBytes "add 1 2\nmatch 0 64\n") [3, 1, 5, 2] (by decide)⟩

/-- C7: whenever the first 1024 bytes of the stream contain no newline
(e.g. a line of 2000 non-newline bytes), the command loop stops with the
close-connection flag, no line is ever handed to `processCommand`, the
state is untouched and nothing is sent; a line of up to 1024 bytes
including its newline is still processed. -/
theorem oversized_line_closes (input sched : List Nat) (st : ServerState)
    (h1 : 10 ∉ input.take bufferSize) (h2 : bufferSize ≤ input.length) :
    readLoop input [] sched = ([], true)
    ∧ runServer st input sched = ((st, ""), true)
    ∧ ∀ (l sched2 : List Nat), 10 ∉ l → l.length ≤ bufferSize - 1 →
        (readLoop (l ++ [10]) [] sched2).1 = [l] := by
  have hover : readLoop input [] sched = ([], true) :=
    readLoop_overflow input.length input [] sched (le_refl _) (by simp [bufferSize])
      (by simpa using h1) (by simpa using h2)
  refine ⟨hover, ?_, ?_⟩
  · rw [runServer, hover]
    rfl
  · intro l sched2 hl hlen
    have hline : splitLines (l ++ [10]) = ([l], []) := by
      have h := splitLines_line l [] hl
      simpa [splitLines] using h
    have h := readLoop_lines (l ++ [10]).length (l ++ [10]) [] sched2 (le_refl _)
      (by simp) (by simp [bufferSize])
      (by
        intro l2 hm
        rw [List.nil_append, hline] at hm
        rcases List.mem_singleton.1 hm with rfl
        exact hlen)
    rw [List.nil_append] at h
    rw [h, hline]

/-- Witness for C7: 1100 non-newline bytes trip the oversized exit; a
1023-byte line plus its newline is still processed. -/
theorem oversized_line_closes_witness :
    (10 ∉ (List.replicate 1100 97).take bufferSize
      ∧ bufferSize ≤ (List.replicate 1100 97 : List Nat).length)
    ∧ readLoop (List.replicate 1100 97) [] [] = ([], true)
    ∧ runServer (initState 1) (List.replicate 1100 97) [] = ((initState 1, ""), true)
    ∧ (readLoop (List.replicate 1023 97 ++ [10]) [] []).1 = [List.replicate 1023 97] := by
  have ha : 10 ∉ (List.replicate 1100 97 : List Nat).take bufferSize := by
    rw [bufferSize, List.take_replicate]
    intro h
    have := (List.mem_replicate.1 h).2
    omega
  have hb : bufferSize ≤ (List.replicate 1100 97 : List Nat).length := by
    rw [bufferSize, List.length_replicate]
    omega
  have hmain := oversized_line_closes (List.replicate 1100 97) [] (initState 1) ha hb
  refine ⟨⟨ha, hb⟩, hmain.1, hmain.2.1, ?_⟩
  refine hmain.2.2 (List.replicate 1023 97) [] ?_ ?_
  · intro h
    have := (List.mem_replicate.1 h).2
    omega
  · rw [bufferSize, List.length_replicate]

/-- C5 (evaluating the code at the failing input): from an empty two-shard
store, processing the line `add 100 000000000000000f` and then the line
`match 000000000000000f 0` stores the entry with the protocol-supplied id
100 in `dbId` and hash `0xf = 15` in `pHash` and computes the single match
`(100, 0)` — the line the response loop formats is exactly `"100 0\n"` —
yet the client's connection receives nothing: the responses go to the
file-scope `acceptedSocket`, which `main`'s shadowing local (line 366)
leaves unassigned, and the failed send breaks the loop.  The claimed
response line `100 0` never reaches the client. -/
theorem scenario_add_then_match :
    runLines (initState 2)
        [strBytes "add 100 000000000000000f", strBytes "match 000000000000000f 0"]
      = (ServerState.mk [[Node.mk 100 15], []] [Match.mk 100 0], "")
    ∧ formatResults [Match.mk 100 0] = "100 0\n" :=
  ⟨rfl, rfl⟩

/-- C8: every newline-terminated line matching neither the match grammar
nor the add grammar (both sscanf calls fall short of two conversions, e.g.
`add 1 zz`, whose hash field has no hex digit) leaves the state — every
shard — unchanged, sends nothing, raises only the invalid-command
diagnostic, and any following lines are processed exactly as if the bad
line had never arrived; the handler never closes the connection over a
parse failure. -/
theorem invalid_line_ignored (st : ServerState) (line : List Nat) (ls : List (List Nat))
    (h1 : parseMatchCmd line = none) (h2 : parseAddCmd line = none) :
    processCommand st line = (st, "", true)
    ∧ runLines st (line :: ls) = runLines st ls := by
  have hp : processCommand st line = (st, "", true) := by
    rw [processCommand, h1, h2]
  refine ⟨hp, ?_⟩
  rw [runLines, hp]
  rfl

/-- Witness for C8 at the spec's example `add 1 zz`, followed by a valid
`match` line. -/
theorem invalid_line_ignored_witness :
    (parseMatchCmd (strBytes "add 1 zz") = none
      ∧ parseAddCmd (strBytes "add 1 zz") = none)
    ∧ processCommand (initState 2) (strBytes "add 1 zz") = (initState 2, "", true)
    ∧ runLines (initState 2) [strBytes "add 1 zz", strBytes "match 0 64"]
        = runLines (initState 2) [strBytes "match 0 64"] :=
  ⟨⟨rfl, rfl⟩,
   invalid_line_ignored (initState 2) (strBytes "add 1 zz") [strBytes "match 0 64"]
     rfl rfl⟩

/-- C10: a line whose head parses as a complete command is executed even
when arbitrary extra text follows: `match ff 3 <extra>` runs the search
for hash `0xff = 255` with threshold 3, and `add 1 5 <extra>` stores the
entry, for every suffix `extra`. -/
theorem trailing_text_accepted (st : ServerState) (extra : List Nat) :
    processCommand st (strBytes "match ff 3 " ++ extra)
      = (ServerState.mk st.shards (search 255 3 st.results st.shards), "", false)
    ∧ processCommand st (strBytes "add 1 5 " ++ extra)
      = (ServerState.mk (add 1 5 st.shards) st.results, "", false) :=
  ⟨rfl, rfl⟩
